import Mathlib

/-!
Verification development for the RTPA Studio Rust CFR engine.

This file gives a shallow embedding in Lean 4 of the parts of the code that
the specification talks about, and proves (or refutes) the spec claims over
that embedding:

* `src/rust_cfr_engine/src/types.rs` — `Card`, `PokerState`, `BettingRound`,
  `Action`, `Strategy` with `get_current_strategy`, `update_regret`,
  `update_strategy`, `get_average_strategy`;
* `src/rust_cfr_engine/src/cfr/engine.rs` — `CfrEngine::train_batch`,
  `train_batch_gpu`, `train_batch_cpu`, `cfr_recursive`, `apply_action`,
  `advance_betting_round`, `evaluate_terminal_state`, `PokerState::is_terminal`;
* `src/rust_cfr_engine/src/lib.rs` — `RustCfrEngine::train_batch`,
  `calculate_win_probability`, `create_cache_key`, `extract_state_values`,
  `simulate_hand_ultra_fast`, `process_single_state`, heuristics;
* `src/rust_cfr_engine/src/cfr/full_engine.rs` —
  `FullCfrEngine::calculate_win_probability_fast`, `simulate_hand_fast`,
  `evaluate_hand_strength_fast`, `calculate_board_interaction`;
* `src/deprecated_rust/rust_cfr_engine/src/cfr/abstraction.rs` —
  `AbstractionManager::evaluate_postflop`, `has_straight`, `has_flush`,
  rank/suit counting.

Modelling conventions:

* Rust `f64` arithmetic is modelled over `ℚ`.  Where the Rust code can
  produce a non-finite `f64` (`0.0/0.0`, `x/0.0`), the embedding makes the
  division explicit: an "f64 value" that can be NaN/∞ is `Option ℚ`
  (`none` = non-finite), and such divisions are modelled by `fdiv`.
* Rust `HashMap` values are modelled as association lists (`HMap`) with
  insert-overwrites-key semantics; iterating a `HashMap` is modelled by
  iterating the association list (order only affects results through
  commutative operations in the code under study).
* Randomness (`thread_rng`) is modelled by explicit oracle parameters that
  supply the drawn values; theorems quantify over all oracles.
* Rust slice indexing out of bounds (a panic) is modelled by `Option`:
  a function that can panic returns `none` on the panicking inputs.
-/

namespace RTPA

/-! ### Association-list model of Rust HashMap -/

/-- Association list standing in for a Rust `HashMap`. -/
abbrev HMap (α β : Type) := List (α × β)

/-- `HashMap::get`: first binding of the key, if any. -/
def hfind {α β : Type} [DecidableEq α] : HMap α β → α → Option β
  | [], _ => none
  | (a, b) :: t, k => if a = k then some b else hfind t k

/-- `HashMap::insert`: overwrite the binding of the key, or append it. -/
def hinsert {α β : Type} [DecidableEq α] : HMap α β → α → β → HMap α β
  | [], k, v => [(k, v)]
  | (a, b) :: t, k, v => if a = k then (k, v) :: t else (a, b) :: hinsert t k v

/-- `*map.entry(k).or_insert(0.0) += v` for a numeric-valued map. -/
def hadd {α : Type} [DecidableEq α] : HMap α ℚ → α → ℚ → HMap α ℚ
  | [], k, v => [(k, v)]
  | (a, b) :: t, k, v => if a = k then (a, b + v) :: t else (a, b) :: hadd t k v

theorem hadd_cons_eq {α : Type} [DecidableEq α] (a : α) (b v : ℚ) (t : HMap α ℚ) :
    hadd ((a, b) :: t) a v = (a, b + v) :: t := by
  simp [hadd]

/-- The keys of the map, in order. -/
def hkeys {α β : Type} (m : HMap α β) : List α := m.map Prod.fst

/-- The values of the map, in order (`HashMap::values`). -/
def hvalues {α β : Type} (m : HMap α β) : List β := m.map Prod.snd

theorem hfind_hinsert_self {α β : Type} [DecidableEq α] (m : HMap α β) (k : α) (v : β) :
    hfind (hinsert m k v) k = some v := by
  induction m with
  | nil => simp [hinsert, hfind]
  | cons p t ih =>
    obtain ⟨a, b⟩ := p
    by_cases h : a = k
    · simp [hinsert, h, hfind]
    · simp [hinsert, h, hfind, ih]

theorem hinsert_not_mem {α β : Type} [DecidableEq α] (m : HMap α β) (k : α) (v : β)
    (h : k ∉ hkeys m) : hinsert m k v = m ++ [(k, v)] := by
  induction m with
  | nil => simp [hinsert]
  | cons p t ih =>
    obtain ⟨a, b⟩ := p
    simp only [hkeys, List.map_cons, List.mem_cons, not_or] at h
    have hne : ¬a = k := fun hh => h.1 hh.symm
    simp [hinsert, hne, ih (by simpa [hkeys] using h.2)]

theorem hkeys_hinsert_mem {α β : Type} [DecidableEq α] (m : HMap α β) (k : α) (v : β)
    (h : k ∈ hkeys m) : hkeys (hinsert m k v) = hkeys m := by
  induction m with
  | nil => simp [hkeys] at h
  | cons p t ih =>
    obtain ⟨a, b⟩ := p
    by_cases hak : a = k
    · simp [hinsert, hak, hkeys]
    · simp only [hkeys, List.map_cons, List.mem_cons] at h
      rcases h with h | h
      · exact absurd h.symm hak
      · have h2 : hkeys (hinsert t k v) = hkeys t := ih (by simpa [hkeys] using h)
        simp only [hinsert, if_neg hak, hkeys, List.map_cons, List.cons.injEq, true_and]
        simpa [hkeys] using h2

theorem hfind_hinsert_ne {α β : Type} [DecidableEq α] (m : HMap α β) (k k' : α) (v : β)
    (h : k' ≠ k) : hfind (hinsert m k v) k' = hfind m k' := by
  induction m with
  | nil => simp [hinsert, hfind, Ne.symm h]
  | cons p t ih =>
    obtain ⟨a, b⟩ := p
    by_cases hak : a = k
    · subst hak
      simp [hinsert, hfind, Ne.symm h]
    · by_cases hak' : a = k'
      · simp [hinsert, hak, hfind, hak', h]
      · simp [hinsert, hak, hfind, hak', ih]

/-- `hfind` on a map built by mapping a value transformation over another map. -/
theorem hfind_map_val {α β γ : Type} [DecidableEq α] (m : HMap α β) (f : β → γ) (k : α) :
    hfind (m.map (fun p => (p.1, f p.2))) k = (hfind m k).map f := by
  induction m with
  | nil => simp [hfind]
  | cons p t ih =>
    obtain ⟨a, b⟩ := p
    by_cases h : a = k
    · simp [hfind, h]
    · simp [hfind, h, ih]

theorem hfind_build {α : Type} [DecidableEq α] (g : α → ℚ) (acts : List α) (a : α)
    (ha : a ∈ acts) : hfind (acts.map (fun x => (x, g x))) a = some (g a) := by
  induction acts with
  | nil => simp at ha
  | cons b t ih =>
    by_cases h : b = a
    · subst h; simp [hfind]
    · rcases List.mem_cons.mp ha with h' | h'
      · exact absurd h'.symm h
      · simp [hfind, h, ih h']

theorem listSum_map_div (l : List ℚ) (t : ℚ) :
    (l.map (fun x => x / t)).sum = l.sum / t := by
  induction l with
  | nil => simp
  | cons x xs ih => simp [ih, add_div]

theorem listSum_map_const {α : Type} (l : List α) (c : ℚ) :
    (l.map (fun _ => c)).sum = l.length * c := by
  induction l with
  | nil => simp
  | cons x xs ih => simp [ih, add_mul, add_comm]

/-! ### `types.rs` — cards, states, actions, strategies -/

/-- `Card { rank: u8, suit: u8 }` (rank 2–14, suit 0–3 in actual play). -/
structure Card where
  rank : ℕ
  suit : ℕ
deriving DecidableEq, Repr

/-- `enum BettingRound { Preflop = 0, Flop = 1, Turn = 2, River = 3 }`. -/
inductive BettingRound where
  | preflop
  | flop
  | turn
  | river
deriving DecidableEq, Repr

/-- The discriminant of a `BettingRound` (`as u8` in the Rust code). -/
def BettingRound.idx : BettingRound → ℕ
  | .preflop => 0
  | .flop => 1
  | .turn => 2
  | .river => 3

/-- `enum Action { Fold, Call, Raise(f64), Check, Bet(f64), AllIn }`. -/
inductive Action where
  | fold
  | call
  | raise (amount : ℚ)
  | check
  | bet (amount : ℚ)
  | allIn
deriving DecidableEq, Repr

/-- `struct PokerState` from `types.rs`. -/
structure PokerState where
  holeCards : List Card
  communityCards : List Card
  potSize : ℚ
  stackSize : ℚ
  position : ℕ
  numPlayers : ℕ
  bettingRound : BettingRound
  availableActions : List Action
deriving DecidableEq, Repr

/-- `PokerState::is_terminal` (`engine.rs`):
`self.available_actions.is_empty() || self.stack_size <= 0.0`. -/
def PokerState.is_terminal (s : PokerState) : Bool :=
  s.availableActions.isEmpty || decide (s.stackSize ≤ 0)

/-- `struct Strategy { regret_sum, strategy_sum, current_strategy }`. -/
structure Strategy where
  regretSum : HMap Action ℚ
  strategySum : HMap Action ℚ
  currentStrategy : HMap Action ℚ
deriving DecidableEq, Repr

/-- `Strategy::new()`. -/
def Strategy.new : Strategy := ⟨[], [], []⟩

/-- One action's clipped regret inside `get_current_strategy`:
`self.regret_sum.get(action).unwrap_or(&0.0).max(0.0)`. -/
def posRegret (regretSum : HMap Action ℚ) (a : Action) : ℚ :=
  max ((hfind regretSum a).getD 0) 0

/-- The positive-regret normalizing sum accumulated by the first loop of
`get_current_strategy` over the given action list. -/
def posRegretSum (regretSum : HMap Action ℚ) (actions : List Action) : ℚ :=
  (actions.map (posRegret regretSum)).sum

/-- `Strategy::get_current_strategy` (`types.rs` lines 72–98): regret matching.
Builds the map of clipped regrets while accumulating the normalizing sum,
then either normalizes each entry (sum positive) or overwrites every legal
action with the uniform probability `1.0 / actions.len()`.  Returns the
strategy map together with the updated `Strategy` (whose `current_strategy`
field the Rust method assigns). -/
def Strategy.get_current_strategy (s : Strategy) (actions : List Action) :
    HMap Action ℚ × Strategy :=
  let pass := actions.foldl
    (fun (acc : HMap Action ℚ × ℚ) a =>
      (hinsert acc.1 a (posRegret s.regretSum a), acc.2 + posRegret s.regretSum a))
    ([], 0)
  let strategy :=
    if 0 < pass.2 then
      pass.1.map (fun p => (p.1, p.2 / pass.2))
    else
      actions.foldl (fun m a => hinsert m a (1 / (actions.length : ℚ))) pass.1
  (strategy, { s with currentStrategy := strategy })

/-- `Strategy::update_regret`: `*regret_sum.entry(action).or_insert(0.0) += regret`. -/
def Strategy.update_regret (s : Strategy) (a : Action) (regret : ℚ) : Strategy :=
  { s with regretSum := hadd s.regretSum a regret }

/-- `Strategy::update_strategy`: `*strategy_sum.entry(action).or_insert(0.0) += probability`. -/
def Strategy.update_strategy (s : Strategy) (a : Action) (probability : ℚ) : Strategy :=
  { s with strategySum := hadd s.strategySum a probability }

/-- `Strategy::get_average_strategy` (`types.rs` lines 111–122): divide each
accumulated strategy weight by the total, or return the empty map when the
total is not positive. -/
def Strategy.get_average_strategy (s : Strategy) : HMap Action ℚ :=
  let total := (hvalues s.strategySum).sum
  if 0 < total then
    s.strategySum.map (fun p => (p.1, p.2 / total))
  else
    []

/-! ### Facts about `get_current_strategy` -/

theorem hkeys_append {α β : Type} (m l : HMap α β) :
    hkeys (m ++ l) = hkeys m ++ hkeys l := by
  simp [hkeys]

/-- The first loop of `get_current_strategy` builds the pointwise map of
clipped regrets and their sum, when the keys it inserts are fresh. -/
theorem currentStrategy_build (g : Action → ℚ) :
    ∀ (acts : List Action) (m₀ : HMap Action ℚ) (s₀ : ℚ),
      acts.Nodup → (∀ a ∈ acts, a ∉ hkeys m₀) →
      acts.foldl (fun (acc : HMap Action ℚ × ℚ) a => (hinsert acc.1 a (g a), acc.2 + g a))
        (m₀, s₀)
        = (m₀ ++ acts.map (fun a => (a, g a)), s₀ + (acts.map g).sum) := by
  intro acts
  induction acts with
  | nil => intro m₀ s₀ _ _; simp
  | cons a t ih =>
    intro m₀ s₀ hnd hfresh
    have ha : a ∉ hkeys m₀ := hfresh a (by simp)
    have h1 : hinsert m₀ a (g a) = m₀ ++ [(a, g a)] := hinsert_not_mem m₀ a (g a) ha
    have hnd' : t.Nodup := (List.nodup_cons.mp hnd).2
    have hanot : a ∉ t := (List.nodup_cons.mp hnd).1
    have hfresh' : ∀ b ∈ t, b ∉ hkeys (m₀ ++ [(a, g a)]) := by
      intro b hb
      rw [hkeys_append]
      simp only [List.mem_append, hkeys, List.map_cons, List.map_nil, List.mem_singleton]
      push_neg
      exact ⟨fun hbm => hfresh b (by simp [hb]) hbm, fun hba => hanot (hba ▸ hb)⟩
    calc (a :: t).foldl
          (fun (acc : HMap Action ℚ × ℚ) x => (hinsert acc.1 x (g x), acc.2 + g x)) (m₀, s₀)
        = t.foldl (fun (acc : HMap Action ℚ × ℚ) x => (hinsert acc.1 x (g x), acc.2 + g x))
            (m₀ ++ [(a, g a)], s₀ + g a) := by
          simp [List.foldl_cons, h1]
      _ = (m₀ ++ [(a, g a)] ++ t.map (fun x => (x, g x)), s₀ + g a + (t.map g).sum) :=
          ih (m₀ ++ [(a, g a)]) (s₀ + g a) hnd' hfresh'
      _ = (m₀ ++ (a :: t).map (fun x => (x, g x)), s₀ + ((a :: t).map g).sum) := by
          simp [List.append_assoc, add_assoc]

theorem hfind_foldl_const_preserve (c : ℚ) :
    ∀ (l : List Action) (m : HMap Action ℚ) (a : Action),
      hfind m a = some c →
      hfind (l.foldl (fun m x => hinsert m x c) m) a = some c := by
  intro l
  induction l with
  | nil => intro m a h; simpa using h
  | cons x t ih =>
    intro m a h
    by_cases hxa : a = x
    · subst hxa
      exact ih _ a (hfind_hinsert_self m a c)
    · exact ih _ a (by rw [hfind_hinsert_ne m x a c hxa]; exact h)

theorem hfind_foldl_const_mem (c : ℚ) :
    ∀ (l : List Action) (m : HMap Action ℚ) (a : Action),
      a ∈ l →
      hfind (l.foldl (fun m x => hinsert m x c) m) a = some c := by
  intro l
  induction l with
  | nil => intro m a h; simp at h
  | cons x t ih =>
    intro m a h
    rcases List.mem_cons.mp h with h | h
    · subst h
      exact hfind_foldl_const_preserve c t _ a (hfind_hinsert_self m a c)
    · exact ih _ a h

theorem hkeys_foldl_const (c : ℚ) :
    ∀ (l : List Action) (m : HMap Action ℚ),
      (∀ x ∈ l, x ∈ hkeys m) →
      hkeys (l.foldl (fun m x => hinsert m x c) m) = hkeys m := by
  intro l
  induction l with
  | nil => intro m _; rfl
  | cons x t ih =>
    intro m h
    have hx : x ∈ hkeys m := h x (by simp)
    have hk : hkeys (hinsert m x c) = hkeys m := hkeys_hinsert_mem m x c hx
    rw [List.foldl_cons, ih _ (fun y hy => by rw [hk]; exact h y (by simp [hy])), hk]

/-- A map whose keys are exactly `acts` (no duplicates) and whose every
lookup yields `c` is the constant map over `acts`. -/
theorem hmap_eq_const_of_keys_find :
    ∀ (m : HMap Action ℚ) (acts : List Action) (c : ℚ),
      hkeys m = acts → acts.Nodup → (∀ a ∈ acts, hfind m a = some c) →
      m = acts.map (fun a => (a, c)) := by
  intro m
  induction m with
  | nil =>
    intro acts c hk _ _
    simp [hkeys] at hk
    simp [← hk]
  | cons p t ih =>
    intro acts c hk hnd hfind'
    obtain ⟨k, v⟩ := p
    cases acts with
    | nil => simp [hkeys] at hk
    | cons a rest =>
      simp only [hkeys, List.map_cons, List.cons.injEq] at hk
      obtain ⟨hka, hrest⟩ := hk
      subst hka
      have hv : v = c := by
        have := hfind' k (by simp)
        simpa [hfind] using this
      have hrec : t = rest.map (fun a => (a, c)) := by
        apply ih rest c hrest (List.nodup_cons.mp hnd).2
        intro a ha
        have hne : ¬k = a := by
          intro hh
          exact (List.nodup_cons.mp hnd).1 (hh ▸ ha)
        have := hfind' a (by simp [ha])
        simpa [hfind, hne] using this
      simp [hv, hrec]

/-- Claim C1 (amended: actions duplicate-free).  For every non-empty
duplicate-free legal-action list and every `regret_sum`, the map returned by
`get_current_strategy` has exactly the legal actions as keys, non-negative
values summing to exactly 1, each probability equal to
`max(regret_sum[a],0) / Σ max(regret_sum[a'],0)` when the positive-regret sum
is positive, and equal to `1 / |actions|` when that sum is 0. -/
theorem claim_C1_theorem (st : Strategy) (actions : List Action)
    (hne : actions ≠ []) (hnd : actions.Nodup) :
    hkeys (st.get_current_strategy actions).1 = actions
    ∧ (∀ v ∈ hvalues (st.get_current_strategy actions).1, 0 ≤ v)
    ∧ (hvalues (st.get_current_strategy actions).1).sum = 1
    ∧ (0 < posRegretSum st.regretSum actions →
        ∀ a ∈ actions, hfind (st.get_current_strategy actions).1 a
          = some (posRegret st.regretSum a / posRegretSum st.regretSum actions))
    ∧ (posRegretSum st.regretSum actions = 0 →
        ∀ a ∈ actions, hfind (st.get_current_strategy actions).1 a
          = some (1 / (actions.length : ℚ))) := by
  have hbuild := currentStrategy_build (posRegret st.regretSum) actions [] 0 hnd
    (by intro a _; simp [hkeys])
  simp only [List.nil_append, zero_add] at hbuild
  have hS : posRegretSum st.regretSum actions = (actions.map (posRegret st.regretSum)).sum := rfl
  by_cases hpos : 0 < posRegretSum st.regretSum actions
  · -- normalizing branch
    have hm : (st.get_current_strategy actions).1
        = actions.map (fun a => (a, posRegret st.regretSum a / posRegretSum st.regretSum actions)) := by
      simp only [Strategy.get_current_strategy, hbuild]
      rw [if_pos (by rw [← hS] at *; exact hpos)]
      simp only [List.map_map, Function.comp_def]
      exact List.map_congr_left (fun a _ => by rw [hS])
    have hSne : posRegretSum st.regretSum actions ≠ 0 := ne_of_gt hpos
    refine ⟨?_, ?_, ?_, ?_, ?_⟩
    · simp [hm, hkeys, List.map_map, Function.comp_def]
    · intro v hv
      simp only [hm, hvalues, List.map_map, Function.comp_def, List.mem_map] at hv
      obtain ⟨a, _, rfl⟩ := hv
      exact div_nonneg (le_max_right _ _) hpos.le
    · have : hvalues ((st.get_current_strategy actions).1)
          = (actions.map (posRegret st.regretSum)).map
              (fun x => x / posRegretSum st.regretSum actions) := by
        simp [hm, hvalues, List.map_map, Function.comp_def]
      rw [this, listSum_map_div, ← hS, div_self hSne]
    · intro _ a ha
      rw [hm]
      exact hfind_build _ actions a ha
    · intro h0
      exact absurd h0 hSne
  · -- uniform branch; the sum of non-negative clipped regrets is 0
    have hm : (st.get_current_strategy actions).1
        = actions.foldl (fun m a => hinsert m a (1 / (actions.length : ℚ)))
            (actions.map (fun a => (a, posRegret st.regretSum a))) := by
      simp only [Strategy.get_current_strategy, hbuild]
      rw [if_neg (by rw [← hS] at *; exact hpos)]
    have hkeys0 : hkeys (actions.map (fun a => (a, posRegret st.regretSum a))) = actions := by
      simp [hkeys, List.map_map, Function.comp_def]
    have hmc : (st.get_current_strategy actions).1
        = actions.map (fun a => (a, 1 / (actions.length : ℚ))) := by
      rw [hm]
      apply hmap_eq_const_of_keys_find _ actions _ ?_ hnd ?_
      · rw [hkeys_foldl_const _ actions _ (fun x hx => by rw [hkeys0]; exact hx)]
        exact hkeys0
      · intro a ha
        exact hfind_foldl_const_mem _ actions _ a ha
    have hlen : (actions.length : ℚ) ≠ 0 := by
      have h1 : 0 < actions.length := List.length_pos.mpr hne
      exact_mod_cast Nat.pos_iff_ne_zero.mp h1
    refine ⟨?_, ?_, ?_, ?_, ?_⟩
    · simp [hmc, hkeys, List.map_map, Function.comp_def]
    · intro v hv
      simp only [hmc, hvalues, List.map_map, Function.comp_def, List.mem_map] at hv
      obtain ⟨a, _, rfl⟩ := hv
      positivity
    · have : hvalues ((st.get_current_strategy actions).1)
          = actions.map (fun _ => 1 / (actions.length : ℚ)) := by
        simp [hmc, hvalues, List.map_map, Function.comp_def]
      rw [this, listSum_map_const, mul_one_div, div_self hlen]
    · intro h0
      exact absurd h0 hpos
    · intro _ a ha
      rw [hmc]
      exact hfind_build _ actions a ha

/-- Witness for C1: concrete instance with two distinct actions and empty
regrets (uniform branch). -/
theorem claim_C1_witness :
    (([Action.fold, Action.call] : List Action) ≠ []
      ∧ ([Action.fold, Action.call] : List Action).Nodup)
    ∧ (hkeys (Strategy.new.get_current_strategy [Action.fold, Action.call]).1
        = [Action.fold, Action.call]
      ∧ (∀ v ∈ hvalues (Strategy.new.get_current_strategy [Action.fold, Action.call]).1, 0 ≤ v)
      ∧ (hvalues (Strategy.new.get_current_strategy [Action.fold, Action.call]).1).sum = 1
      ∧ (0 < posRegretSum Strategy.new.regretSum [Action.fold, Action.call] →
          ∀ a ∈ ([Action.fold, Action.call] : List Action),
            hfind (Strategy.new.get_current_strategy [Action.fold, Action.call]).1 a
              = some (posRegret Strategy.new.regretSum a
                  / posRegretSum Strategy.new.regretSum [Action.fold, Action.call]))
      ∧ (posRegretSum Strategy.new.regretSum [Action.fold, Action.call] = 0 →
          ∀ a ∈ ([Action.fold, Action.call] : List Action),
            hfind (Strategy.new.get_current_strategy [Action.fold, Action.call]).1 a
              = some (1 / (([Action.fold, Action.call] : List Action).length : ℚ)))) :=
  ⟨⟨by decide, by decide⟩,
    claim_C1_theorem Strategy.new [Action.fold, Action.call] (by decide) (by decide)⟩

/-- Counterexample to C1 as stated: on the duplicate legal-action list
`[Call, Call]` (with empty regrets) the returned probabilities sum to 1/2,
not 1 — `HashMap::insert` deduplicates the key while the uniform probability
divides by the list length 2. -/
theorem claim_C1_counterexample :
    (hvalues (Strategy.new.get_current_strategy [Action.call, Action.call]).1).sum ≠ 1 := by
  norm_num [Strategy.get_current_strategy, Strategy.new, posRegret, hfind, hinsert, hvalues]

/-- Claim C7.  `get_average_strategy` returns `strategy_sum[a] / Σ strategy_sum`
over all recorded actions whenever the total recorded mass is positive (and
those values sum to 1), and returns the empty map when nothing was ever
recorded. -/
theorem claim_C7_theorem (rs ss cs : HMap Action ℚ) :
    (0 < (hvalues ss).sum →
      Strategy.get_average_strategy ⟨rs, ss, cs⟩
          = ss.map (fun p => (p.1, p.2 / (hvalues ss).sum))
        ∧ (hvalues (Strategy.get_average_strategy ⟨rs, ss, cs⟩)).sum = 1
        ∧ ∀ a v, hfind ss a = some v →
            hfind (Strategy.get_average_strategy ⟨rs, ss, cs⟩) a
              = some (v / (hvalues ss).sum))
    ∧ (ss = [] → Strategy.get_average_strategy ⟨rs, ss, cs⟩ = []) := by
  constructor
  · intro hpos
    have hif : Strategy.get_average_strategy ⟨rs, ss, cs⟩
        = ss.map (fun p => (p.1, p.2 / (hvalues ss).sum)) := by
      simp only [Strategy.get_average_strategy]
      rw [if_pos hpos]
    refine ⟨hif, ?_, ?_⟩
    · have hv : hvalues (Strategy.get_average_strategy ⟨rs, ss, cs⟩)
          = (hvalues ss).map (fun x => x / (hvalues ss).sum) := by
        simp [hif, hvalues, List.map_map, Function.comp_def]
      rw [hv, listSum_map_div, div_self (ne_of_gt hpos)]
    · intro a v hfv
      have h2 := hfind_map_val ss (fun x => x / (hvalues ss).sum) a
      rw [hfv] at h2
      rw [hif]
      simpa using h2
  · intro hss
    simp [Strategy.get_average_strategy, hss, hvalues]

/-- Witness for C7: positive total mass 4 over two actions. -/
theorem claim_C7_witness :
    (0 < (hvalues [(Action.call, (1 : ℚ)), (Action.fold, 3)]).sum)
    ∧ (Strategy.get_average_strategy ⟨[], [(Action.call, (1 : ℚ)), (Action.fold, 3)], []⟩
        = [(Action.call, (1 : ℚ)), (Action.fold, 3)].map
            (fun p => (p.1, p.2 / (hvalues [(Action.call, (1 : ℚ)), (Action.fold, 3)]).sum))
      ∧ (hvalues (Strategy.get_average_strategy
          ⟨[], [(Action.call, (1 : ℚ)), (Action.fold, 3)], []⟩)).sum = 1
      ∧ ∀ a v, hfind [(Action.call, (1 : ℚ)), (Action.fold, 3)] a = some v →
          hfind (Strategy.get_average_strategy
              ⟨[], [(Action.call, (1 : ℚ)), (Action.fold, 3)], []⟩) a
            = some (v / (hvalues [(Action.call, (1 : ℚ)), (Action.fold, 3)]).sum)) :=
  ⟨by norm_num [hvalues],
    (claim_C7_theorem [] [(Action.call, (1 : ℚ)), (Action.fold, 3)] []).1
      (by norm_num [hvalues])⟩

/-! ### `deprecated_rust .../cfr/abstraction.rs` — hand classification

`AbstractionManager::evaluate_postflop`, `has_straight`, `has_flush`,
`count_ranks`, `count_suits`.  Rust slice indexing panics out of bounds;
`has_straight` indexes `ranks[i + j]` for `j in 1..5` even when the deduped
rank list is shorter than 5, so it is modelled with `Option Bool`
(`none` = panic). -/

/-- Number of cards of the given rank (`count_ranks(cards)[r]`). -/
def rankCount (cards : List Card) (r : ℕ) : ℕ :=
  (cards.filter (fun c => c.rank = r)).length

/-- The distinct ranks present (the key set of `count_ranks`). -/
def distinctRanks (cards : List Card) : List ℕ :=
  (cards.map Card.rank).dedup

/-- Number of ranks occurring exactly twice (`pairs` in `evaluate_postflop`). -/
def pairsCount (cards : List Card) : ℕ :=
  ((distinctRanks cards).filter (fun r => rankCount cards r = 2)).length

/-- Number of ranks occurring exactly three times (`trips`). -/
def tripsCount (cards : List Card) : ℕ :=
  ((distinctRanks cards).filter (fun r => rankCount cards r = 3)).length

/-- Number of ranks occurring exactly four times (`quads`). -/
def quadsCount (cards : List Card) : ℕ :=
  ((distinctRanks cards).filter (fun r => rankCount cards r = 4)).length

/-- Number of cards of the given suit (`count_suits(cards)[s]`). -/
def suitCount (cards : List Card) (s : ℕ) : ℕ :=
  (cards.filter (fun c => c.suit = s)).length

/-- `AbstractionManager::has_flush`: some suit occurs at least 5 times. -/
def has_flush (cards : List Card) : Bool :=
  ((cards.map Card.suit).dedup).any (fun s => 5 ≤ suitCount cards s)

/-- `ranks` inside `has_straight`: collect ranks, `sort_unstable`, `dedup`.
(Rust `dedup` drops consecutive duplicates; on a sorted list this equals
full deduplication.) -/
def sortedRanks (cards : List Card) : List ℕ :=
  ((cards.map Card.rank).insertionSort (· ≤ ·)).dedup

/-- The inner loop `for j in 1..5 { if ranks[i+j] != ranks[i+j-1]+1 { break } }`
of `has_straight`, with `k` the number of comparisons left (`k = 5 - j`).
`some true`: all consecutive; `some false`: mismatch found (loop `break`);
`none`: index out of bounds, i.e. the Rust code panics. -/
def checkRun (ranks : List ℕ) (i : ℕ) : ℕ → ℕ → Option Bool
  | _, 0 => some true
  | j, k + 1 =>
    match ranks.get? (i + j), ranks.get? (i + j - 1) with
    | some a, some b => if a ≠ b + 1 then some false else checkRun ranks i (j + 1) k
    | _, _ => none

/-- The outer loop `for i in 0..=ranks.len().saturating_sub(5)` of
`has_straight`: returns on the first fully consecutive window, propagates a
panic. -/
def straightLoop (ranks : List ℕ) : List ℕ → Option Bool
  | [] => some false
  | i :: rest =>
    match checkRun ranks i 1 4 with
    | none => none
    | some true => some true
    | some false => straightLoop ranks rest

/-- `AbstractionManager::has_straight` (`abstraction.rs` lines 208–233):
window scan over the sorted deduplicated ranks, then the A-2-3-4-5 wheel
special case. -/
def has_straight (cards : List Card) : Option Bool :=
  match straightLoop (sortedRanks cards)
      (List.range ((sortedRanks cards).length - 5 + 1)) with
  | none => none
  | some true => some true
  | some false =>
    if 14 ∈ sortedRanks cards ∧ 2 ∈ sortedRanks cards ∧ 3 ∈ sortedRanks cards
        ∧ 4 ∈ sortedRanks cards ∧ 5 ∈ sortedRanks cards
    then some true
    else some false

/-- `all_cards.iter().map(|c| c.rank).max()` (`None` on an empty hand). -/
def maxRankAux : List ℕ → Option ℕ
  | [] => none
  | x :: xs =>
    match maxRankAux xs with
    | none => some x
    | some m => some (max x m)

/-- `let highest = ...max().unwrap_or(2)` in the high-card branch. -/
def highestRank (cards : List Card) : ℕ :=
  (maxRankAux (cards.map Card.rank)).getD 2

/-- `AbstractionManager::evaluate_postflop` (`abstraction.rs` lines 139–182):
fixed strength band per hand category; `none` when the straight check
panics. -/
def evaluate_postflop (cards : List Card) : Option ℚ :=
  if 0 < quadsCount cards then some (95 / 100)
  else if 0 < tripsCount cards ∧ 0 < pairsCount cards then some (9 / 10)
  else if has_flush cards then some (85 / 100)
  else
    match has_straight cards with
    | none => none
    | some true => some (8 / 10)
    | some false =>
      if 0 < tripsCount cards then some (75 / 100)
      else if 2 ≤ pairsCount cards then some (65 / 100)
      else if pairsCount cards = 1 then some (45 / 100)
      else some (((highestRank cards : ℚ) - 2) / 12 * (3 / 10))

/-- The hand category assigned by the `evaluate_postflop` decision chain
(`none` when the straight check panics). -/
inductive HandClass where
  | highCard (r : ℕ)
  | onePair
  | twoPair
  | trips
  | straight
  | flush
  | fullHouse
  | quads
deriving DecidableEq, Repr

/-- The decision chain of `evaluate_postflop`, returning the category. -/
def classify (cards : List Card) : Option HandClass :=
  if 0 < quadsCount cards then some HandClass.quads
  else if 0 < tripsCount cards ∧ 0 < pairsCount cards then some HandClass.fullHouse
  else if has_flush cards then some HandClass.flush
  else
    match has_straight cards with
    | none => none
    | some true => some HandClass.straight
    | some false =>
      if 0 < tripsCount cards then some HandClass.trips
      else if 2 ≤ pairsCount cards then some HandClass.twoPair
      else if pairsCount cards = 1 then some HandClass.onePair
      else some (HandClass.highCard (highestRank cards))

/-- The fixed strength band of each category in `evaluate_postflop`. -/
def bandValue : HandClass → ℚ
  | .highCard r => ((r : ℚ) - 2) / 12 * (3 / 10)
  | .onePair => 45 / 100
  | .twoPair => 65 / 100
  | .trips => 75 / 100
  | .straight => 8 / 10
  | .flush => 85 / 100
  | .fullHouse => 9 / 10
  | .quads => 95 / 100

/-- Position of the category in the authoritative ranking order. -/
def classRank : HandClass → ℕ
  | .highCard _ => 0
  | .onePair => 1
  | .twoPair => 2
  | .trips => 3
  | .straight => 4
  | .flush => 5
  | .fullHouse => 6
  | .quads => 7

theorem evaluate_postflop_classify (cards : List Card) :
    evaluate_postflop cards = (classify cards).map bandValue := by
  unfold evaluate_postflop classify
  cases hst : has_straight cards with
  | none => split_ifs <;> rfl
  | some b => cases b <;> split_ifs <;> rfl

theorem checkRun_isSome (ranks : List ℕ) (i : ℕ) :
    ∀ k j, 1 ≤ j → i + j + k ≤ ranks.length → (checkRun ranks i j k).isSome = true := by
  intro k
  induction k with
  | zero => intro j _ _; rfl
  | succ k ih =>
    intro j hj hlen
    have h1 : i + j < ranks.length := by omega
    have h2 : i + j - 1 < ranks.length := by omega
    have ha : ranks.get? (i + j) = some (ranks.get ⟨i + j, h1⟩) := List.get?_eq_get h1
    have hb : ranks.get? (i + j - 1) = some (ranks.get ⟨i + j - 1, h2⟩) := List.get?_eq_get h2
    rw [checkRun]
    simp only [ha, hb]
    split_ifs with hne
    · rfl
    · exact ih (j + 1) (by omega) (by omega)

theorem straightLoop_isSome (ranks : List ℕ) :
    ∀ is : List ℕ, (∀ i ∈ is, (checkRun ranks i 1 4).isSome = true) →
      (straightLoop ranks is).isSome = true := by
  intro is
  induction is with
  | nil => intro _; rfl
  | cons i rest ih =>
    intro h
    have hi : (checkRun ranks i 1 4).isSome = true := h i (by simp)
    obtain ⟨b, hb⟩ := Option.isSome_iff_exists.mp hi
    rw [straightLoop, hb]
    cases b
    · exact ih (fun x hx => h x (by simp [hx]))
    · rfl

/-- Membership in the sorted deduplicated rank list is membership among the
card ranks. -/
theorem mem_sortedRanks (cards : List Card) (r : ℕ) :
    r ∈ sortedRanks cards ↔ r ∈ cards.map Card.rank := by
  unfold sortedRanks
  rw [List.mem_dedup, List.mem_insertionSort]

/-- Claim C6.  Any card multiset whose ranks include 14, 2, 3, 4 and 5 is
recognized as a straight (the wheel special case), and the straight check
does not panic on it. -/
theorem claim_C6_theorem (cards : List Card)
    (h14 : 14 ∈ cards.map Card.rank) (h2 : 2 ∈ cards.map Card.rank)
    (h3 : 3 ∈ cards.map Card.rank) (h4 : 4 ∈ cards.map Card.rank)
    (h5 : 5 ∈ cards.map Card.rank) :
    has_straight cards = some true := by
  have hm14 : 14 ∈ sortedRanks cards := (mem_sortedRanks cards 14).mpr h14
  have hm2 : 2 ∈ sortedRanks cards := (mem_sortedRanks cards 2).mpr h2
  have hm3 : 3 ∈ sortedRanks cards := (mem_sortedRanks cards 3).mpr h3
  have hm4 : 4 ∈ sortedRanks cards := (mem_sortedRanks cards 4).mpr h4
  have hm5 : 5 ∈ sortedRanks cards := (mem_sortedRanks cards 5).mpr h5
  have hsub : ([2, 3, 4, 5, 14] : List ℕ) ⊆ sortedRanks cards := by
    intro x hx
    simp only [List.mem_cons, List.not_mem_nil, or_false] at hx
    rcases hx with rfl | rfl | rfl | rfl | rfl
    · exact hm2
    · exact hm3
    · exact hm4
    · exact hm5
    · exact hm14
  have hlen : 5 ≤ (sortedRanks cards).length := by
    have hnd : ([2, 3, 4, 5, 14] : List ℕ).Nodup := by decide
    have := (List.subperm_of_subset hnd hsub).length_le
    simpa using this
  have hloop : (straightLoop (sortedRanks cards)
      (List.range ((sortedRanks cards).length - 5 + 1))).isSome = true := by
    apply straightLoop_isSome
    intro i hi
    rw [List.mem_range] at hi
    exact checkRun_isSome (sortedRanks cards) i 4 1 (by omega) (by omega)
  obtain ⟨b, hb⟩ := Option.isSome_iff_exists.mp hloop
  unfold has_straight
  rw [hb]
  cases b
  · rw [if_pos ⟨hm14, hm2, hm3, hm4, hm5⟩]
  · rfl

/-- Witness for C6: a concrete 7-card wheel hand. -/
theorem claim_C6_witness :
    (14 ∈ ([Card.mk 14 0, Card.mk 2 1, Card.mk 3 2, Card.mk 4 3,
        Card.mk 5 0, Card.mk 9 1, Card.mk 11 2].map Card.rank)
      ∧ 2 ∈ ([Card.mk 14 0, Card.mk 2 1, Card.mk 3 2, Card.mk 4 3,
        Card.mk 5 0, Card.mk 9 1, Card.mk 11 2].map Card.rank)
      ∧ 3 ∈ ([Card.mk 14 0, Card.mk 2 1, Card.mk 3 2, Card.mk 4 3,
        Card.mk 5 0, Card.mk 9 1, Card.mk 11 2].map Card.rank)
      ∧ 4 ∈ ([Card.mk 14 0, Card.mk 2 1, Card.mk 3 2, Card.mk 4 3,
        Card.mk 5 0, Card.mk 9 1, Card.mk 11 2].map Card.rank)
      ∧ 5 ∈ ([Card.mk 14 0, Card.mk 2 1, Card.mk 3 2, Card.mk 4 3,
        Card.mk 5 0, Card.mk 9 1, Card.mk 11 2].map Card.rank))
    ∧ has_straight [Card.mk 14 0, Card.mk 2 1, Card.mk 3 2, Card.mk 4 3,
        Card.mk 5 0, Card.mk 9 1, Card.mk 11 2] = some true :=
  ⟨⟨by decide, by decide, by decide, by decide, by decide⟩,
    claim_C6_theorem _ (by decide) (by decide) (by decide) (by decide) (by decide)⟩

theorem maxRankAux_le (bound : ℕ) :
    ∀ l : List ℕ, (∀ x ∈ l, x ≤ bound) → ∀ m, maxRankAux l = some m → m ≤ bound := by
  intro l
  induction l with
  | nil => intro _ m hm; simp [maxRankAux] at hm
  | cons x xs ih =>
    intro hb m hm
    rw [maxRankAux] at hm
    cases hx : maxRankAux xs with
    | none =>
      rw [hx] at hm
      simp only [Option.some.injEq] at hm
      exact hm ▸ hb x (by simp)
    | some m0 =>
      rw [hx] at hm
      simp only [Option.some.injEq] at hm
      have h1 : x ≤ bound := hb x (by simp)
      have h2 : m0 ≤ bound := ih (fun y hy => hb y (by simp [hy])) m0 hx
      omega

theorem highestRank_le (cards : List Card) (hr : ∀ c ∈ cards, c.rank ≤ 14) :
    highestRank cards ≤ 14 := by
  unfold highestRank
  cases hm : maxRankAux (cards.map Card.rank) with
  | none => simp
  | some m =>
    simp only [Option.getD_some]
    apply maxRankAux_le 14 (cards.map Card.rank) ?_ m hm
    intro x hx
    obtain ⟨c, hc, rfl⟩ := List.mem_map.mp hx
    exact hr c hc

theorem classify_highCard (cards : List Card) (r : ℕ)
    (h : classify cards = some (HandClass.highCard r)) : r = highestRank cards := by
  unfold classify at h
  cases hst : has_straight cards with
  | none => rw [hst] at h; split_ifs at h <;> simp at h
  | some b =>
    rw [hst] at h
    cases b
    · split_ifs at h <;> simp at h
      exact h.symm
    · split_ifs at h <;> simp at h

theorem bandValue_lt (cl cl' : HandClass)
    (hhc : ∀ r, cl = HandClass.highCard r → (r : ℚ) ≤ 14)
    (h : classRank cl < classRank cl') : bandValue cl < bandValue cl' := by
  cases cl with
  | highCard r =>
    have hr : (r : ℚ) ≤ 14 := hhc r rfl
    cases cl' <;> simp only [classRank] at h <;>
      first
        | exact absurd h (by omega)
        | (simp only [bandValue]; nlinarith [hr])
  | onePair =>
    cases cl' <;> simp only [classRank] at h <;>
      first
        | exact absurd h (by omega)
        | (simp only [bandValue]; norm_num)
  | twoPair =>
    cases cl' <;> simp only [classRank] at h <;>
      first
        | exact absurd h (by omega)
        | (simp only [bandValue]; norm_num)
  | trips =>
    cases cl' <;> simp only [classRank] at h <;>
      first
        | exact absurd h (by omega)
        | (simp only [bandValue]; norm_num)
  | straight =>
    cases cl' <;> simp only [classRank] at h <;>
      first
        | exact absurd h (by omega)
        | (simp only [bandValue]; norm_num)
  | flush =>
    cases cl' <;> simp only [classRank] at h <;>
      first
        | exact absurd h (by omega)
        | (simp only [bandValue]; norm_num)
  | fullHouse =>
    cases cl' <;> simp only [classRank] at h <;>
      first
        | exact absurd h (by omega)
        | (simp only [bandValue]; norm_num)
  | quads =>
    cases cl' <;> simp only [classRank] at h <;>
      exact absurd h (by omega)

/-- Claim C5 (amended).  For hands with card ranks at most 14 on which the
classification chain completes (the straight scan can panic, see the
counterexample), `evaluate_postflop` assigns the fixed band of the assigned
category; the bands are strictly ordered as
quads > full house > flush > straight > trips > two pair > one pair > high
card; in particular a flush-classified hand strictly outranks a
one-pair-classified hand; and a hand with a rank appearing exactly three
times together with a different rank appearing exactly twice (and no
four-of-a-kind) is classified as a full house (a hand with two
three-of-a-kinds is instead classified as trips). -/
theorem claim_C5_theorem (cards cards' : List Card) (cl cl' : HandClass)
    (hr : ∀ c ∈ cards, c.rank ≤ 14)
    (hc : classify cards = some cl) (hc' : classify cards' = some cl') :
    evaluate_postflop cards = some (bandValue cl)
    ∧ (classRank cl < classRank cl' → bandValue cl < bandValue cl')
    ∧ (cl = HandClass.flush → cl' = HandClass.onePair → bandValue cl' < bandValue cl)
    ∧ (quadsCount cards = 0 → 0 < tripsCount cards → 0 < pairsCount cards →
        evaluate_postflop cards = some (9 / 10)) := by
  refine ⟨?_, ?_, ?_, ?_⟩
  · rw [evaluate_postflop_classify, hc]
    rfl
  · intro hlt
    apply bandValue_lt cl cl' ?_ hlt
    intro r hcl
    have hr2 : r = highestRank cards := classify_highCard cards r (hcl ▸ hc)
    have := highestRank_le cards hr
    exact_mod_cast hr2 ▸ this
  · intro hfl hop
    subst hfl; subst hop
    norm_num [bandValue]
  · intro hq ht hp
    have hcl : classify cards = some HandClass.fullHouse := by
      unfold classify
      rw [if_neg (by omega), if_pos ⟨ht, hp⟩]
    rw [evaluate_postflop_classify, hcl]
    rfl

/-- Witness for C5: a concrete flush hand and a concrete one-pair hand. -/
theorem claim_C5_witness :
    ((∀ c ∈ [Card.mk 2 0, Card.mk 5 0, Card.mk 7 0, Card.mk 9 0, Card.mk 11 0], c.rank ≤ 14)
      ∧ classify [Card.mk 2 0, Card.mk 5 0, Card.mk 7 0, Card.mk 9 0, Card.mk 11 0]
          = some HandClass.flush
      ∧ classify [Card.mk 2 0, Card.mk 2 1, Card.mk 5 2, Card.mk 9 3, Card.mk 11 0]
          = some HandClass.onePair)
    ∧ evaluate_postflop [Card.mk 2 0, Card.mk 5 0, Card.mk 7 0, Card.mk 9 0, Card.mk 11 0]
        = some (bandValue HandClass.flush)
    ∧ (classRank HandClass.flush < classRank HandClass.onePair →
        bandValue HandClass.flush < bandValue HandClass.onePair)
    ∧ (HandClass.flush = HandClass.flush → HandClass.onePair = HandClass.onePair →
        bandValue HandClass.onePair < bandValue HandClass.flush)
    ∧ (quadsCount [Card.mk 2 0, Card.mk 5 0, Card.mk 7 0, Card.mk 9 0, Card.mk 11 0] = 0 →
        0 < tripsCount [Card.mk 2 0, Card.mk 5 0, Card.mk 7 0, Card.mk 9 0, Card.mk 11 0] →
        0 < pairsCount [Card.mk 2 0, Card.mk 5 0, Card.mk 7 0, Card.mk 9 0, Card.mk 11 0] →
        evaluate_postflop [Card.mk 2 0, Card.mk 5 0, Card.mk 7 0, Card.mk 9 0, Card.mk 11 0]
          = some (9 / 10)) :=
  ⟨⟨by decide, by decide, by decide⟩,
    claim_C5_theorem
      [Card.mk 2 0, Card.mk 5 0, Card.mk 7 0, Card.mk 9 0, Card.mk 11 0]
      [Card.mk 2 0, Card.mk 2 1, Card.mk 5 2, Card.mk 9 3, Card.mk 11 0]
      HandClass.flush HandClass.onePair (by decide) (by decide) (by decide)⟩

/-- Counterexample to C5 as stated.  The 7-card hand 5♠5♥5♦9♠9♥9♦K♣ contains
three of a kind together with a separate pair (three nines contain a pair of
nines), yet `evaluate_postflop` scores it 0.75 (trips), not 0.90 (full
house), because `pairs` counts only ranks occurring *exactly* twice.
Moreover on 5♠5♥6♦7♠8♥ the straight scan indexes past the end of the 4-rank
deduplicated list, i.e. the Rust code panics, so no strength is assigned at
all. -/
theorem claim_C5_counterexample :
    (∃ r ∈ distinctRanks [Card.mk 5 0, Card.mk 5 1, Card.mk 5 2,
        Card.mk 9 0, Card.mk 9 1, Card.mk 9 2, Card.mk 13 3],
      ∃ s ∈ distinctRanks [Card.mk 5 0, Card.mk 5 1, Card.mk 5 2,
        Card.mk 9 0, Card.mk 9 1, Card.mk 9 2, Card.mk 13 3],
        r ≠ s
        ∧ 3 ≤ rankCount [Card.mk 5 0, Card.mk 5 1, Card.mk 5 2,
            Card.mk 9 0, Card.mk 9 1, Card.mk 9 2, Card.mk 13 3] r
        ∧ 2 ≤ rankCount [Card.mk 5 0, Card.mk 5 1, Card.mk 5 2,
            Card.mk 9 0, Card.mk 9 1, Card.mk 9 2, Card.mk 13 3] s)
    ∧ evaluate_postflop [Card.mk 5 0, Card.mk 5 1, Card.mk 5 2,
        Card.mk 9 0, Card.mk 9 1, Card.mk 9 2, Card.mk 13 3] = some (75 / 100)
    ∧ (75 : ℚ) / 100 ≠ 9 / 10
    ∧ evaluate_postflop [Card.mk 5 0, Card.mk 5 1, Card.mk 6 2,
        Card.mk 7 0, Card.mk 8 1] = none := by
  refine ⟨by decide, by rfl, by norm_num, by rfl⟩

/-! ### `cfr/engine.rs` — the game-tree walker and the batch dispatcher

Randomness (`thread_rng`) is passed in explicitly: `advance_betting_round`
takes the cards that `generate_flop` / `generate_turn_river` would produce,
`evaluate_terminal_state` takes the coin that `gen_bool(0.5)` would produce,
and the recursion takes a path-indexed oracle supplying all of them.  The
abstraction (`crate::cfr::AbstractionManager::state_to_infoset`, whose file
is not part of the current crate's sources) is an arbitrary key function
parameter.  The recursion is sequentialized: the `DashMap` entry acquired at
the top of `cfr_recursive` is re-read after the child walks, then the regret
and strategy-sum updates are applied to it and written back. -/

/-- `f64` division whose denominator may be zero: `x / 0.0` is NaN or ±∞ in
Rust, which is no rational; modelled as `none`. -/
def fdiv (a b : ℚ) : Option ℚ := if b = 0 then none else some (a / b)

/-- `CfrEngine::evaluate_terminal_state`, with the `gen_bool(0.5)` draw as a
parameter: the pot on a win, minus half the pot on a loss. -/
def evaluate_terminal_state (coin : Bool) (s : PokerState) : ℚ :=
  if coin then s.potSize else -(s.potSize * (1 / 2))

/-- `CfrEngine::advance_betting_round` (`engine.rs` lines 176–209), with the
would-be generated flop and turn/river card as parameters. -/
def advance_betting_round (flopCards : List Card) (nextCard : Card)
    (s : PokerState) : PokerState :=
  let s1 :=
    match s.bettingRound with
    | .preflop =>
      { s with bettingRound := .flop,
               communityCards :=
                 if s.communityCards.length = 0 then flopCards else s.communityCards }
    | .flop =>
      { s with bettingRound := .turn,
               communityCards :=
                 if s.communityCards.length = 3 then s.communityCards ++ [nextCard]
                 else s.communityCards }
    | .turn =>
      { s with bettingRound := .river,
               communityCards :=
                 if s.communityCards.length = 4 then s.communityCards ++ [nextCard]
                 else s.communityCards }
    | .river => { s with availableActions := [] }
  if s1.availableActions.isEmpty then s1
  else { s1 with availableActions := [.check, .bet (s1.stackSize * (1 / 2)), .fold] }

/-- `CfrEngine::apply_action` (`engine.rs` lines 145–173). -/
def apply_action (flopCards : List Card) (nextCard : Card)
    (s : PokerState) (a : Action) : PokerState :=
  match a with
  | .fold => { s with availableActions := [] }
  | .call => advance_betting_round flopCards nextCard s
  | .raise amount =>
    advance_betting_round flopCards nextCard
      { s with potSize := s.potSize + amount, stackSize := s.stackSize - amount }
  | .check => advance_betting_round flopCards nextCard s
  | .bet amount =>
    advance_betting_round flopCards nextCard
      { s with potSize := s.potSize + amount, stackSize := s.stackSize - amount }
  | .allIn =>
    { s with potSize := s.potSize + s.stackSize, stackSize := 0, availableActions := [] }

/-- Everything `generate_flop`, `generate_turn_river` and
`evaluate_terminal_state` draw at one node of the traversal. -/
abbrev CfrOracle := List ℕ → List Card × Card × Bool

mutual
/-- `CfrEngine::cfr_recursive` (`engine.rs` lines 107–142), with an explicit
recursion-depth budget `fuel` (`none` = budget exhausted; the Rust function
has no budget, and `claim_C4_theorem` shows budget 4 always suffices).
`abs` is the information-set key function, `path` the node's position in the
tree (indexing the oracle). -/
def cfrRec {K : Type} [DecidableEq K] (abs : PokerState → K) (oracle : CfrOracle) :
    ℕ → HMap K Strategy → List ℕ → PokerState → ℚ → ℚ → Option (ℚ × HMap K Strategy)
  | 0, _, _, _, _, _ => none
  | fuel + 1, strategies, path, state, reachP, reachO =>
    let key := abs state
    let entry := (hfind strategies key).getD Strategy.new
    let pr := entry.get_current_strategy state.availableActions
    match cfrList abs oracle fuel (hinsert strategies key pr.2) path state pr.1
        reachP reachO state.availableActions.enum with
    | none => none
    | some (actionValues, nodeValue, strategies2) =>
      let entry2 := (hfind strategies2 key).getD Strategy.new
      let entry3 := actionValues.foldl
        (fun e p =>
          (e.update_regret p.1 ((p.2 - nodeValue) * reachO)).update_strategy p.1
            (reachP * ((hfind pr.1 p.1).getD 0)))
        entry2
      some (nodeValue, hinsert strategies2 key entry3)
termination_by fuel strategies path state reachP reachO => (fuel, 0)

/-- The `for action in &state.available_actions` loop of `cfr_recursive`:
returns the per-action values, the node value `Σ prob·value`, and the
updated strategy table. -/
def cfrList {K : Type} [DecidableEq K] (abs : PokerState → K) (oracle : CfrOracle) :
    ℕ → HMap K Strategy → List ℕ → PokerState → HMap Action ℚ → ℚ → ℚ →
    List (ℕ × Action) → Option (HMap Action ℚ × ℚ × HMap K Strategy)
  | _, strategies, _, _, _, _, _, [] => some ([], 0, strategies)
  | fuel, strategies, path, state, strategy, reachP, reachO, (i, a) :: rest =>
    match
      (if (apply_action (oracle (i :: path)).1 (oracle (i :: path)).2.1 state a).is_terminal then
        some (evaluate_terminal_state (oracle (i :: path)).2.2
          (apply_action (oracle (i :: path)).1 (oracle (i :: path)).2.1 state a), strategies)
      else
        match cfrRec abs oracle fuel strategies (i :: path)
            (apply_action (oracle (i :: path)).1 (oracle (i :: path)).2.1 state a)
            reachO (reachP * ((hfind strategy a).getD 0)) with
        | none => none
        | some (v, st) => some (-v, st)) with
    | none => none
    | some (av, strategies3) =>
      match cfrList abs oracle fuel strategies3 path state strategy reachP reachO rest with
      | none => none
      | some (avs, nodeValue, st4) =>
        some (hinsert avs a av, ((hfind strategy a).getD 0) * av + nodeValue, st4)
termination_by fuel strategies path state strategy reachP reachO l => (fuel, l.length + 1)
end

/-- The list chunking of `states.par_chunks(chunk_size)` (chunks processed in
order; `rayon` only parallelizes the map over them). -/
def listChunks {α : Type} : List α → ℕ → List (List α)
  | [], _ => []
  | x :: xs, n => (x :: xs.take (n - 1)) :: listChunks (xs.drop (n - 1)) n
termination_by l n => l.length
decreasing_by
  have := List.length_drop (n - 1) xs
  simp only [List.length_cons]
  omega

/-- `CfrEngine::train_batch_cpu` (`engine.rs` lines 91–104): mean of
per-chunk means of the per-state CFR values.  The per-state value
`cfr_recursive(state, 1.0, 1.0)` is the function parameter `cfrValue`.
The final `convergences.sum() / convergences.len()` is an unguarded `f64`
division: on an empty batch it is `0.0 / 0.0 = NaN`, hence `fdiv`. -/
def train_batch_cpu (cfrValue : PokerState → ℚ) (cpuThreads : ℕ)
    (states : List PokerState) : Option ℚ :=
  let chunkSize := max (states.length / cpuThreads) 1
  let convergences := (listChunks states chunkSize).map
    (fun chunk => (chunk.map cfrValue).sum / (chunk.length : ℚ))
  fdiv convergences.sum (convergences.length : ℚ)

/-- `CfrEngine::train_batch_gpu` (`engine.rs` lines 81–88): if a GPU engine
is present its `compute_cfr_batch` result — including its error — is
returned as is; the CPU fallback arm runs only when no GPU engine exists.
The opaque GPU call (`gpu/compute.rs` is not part of the current crate's
sources) is a function parameter that may fail, per the spec's Accelerator
interface. -/
def train_batch_gpu (gpuCompute : Option (List PokerState → Except String ℚ))
    (cpuPath : List PokerState → Option ℚ) (states : List PokerState) :
    Except String (Option ℚ) :=
  match gpuCompute with
  | some gpu => (gpu states).map some
  | none => .ok (cpuPath states)

/-- `CfrEngine::train_batch` (`engine.rs` lines 55–78): route to the GPU
when the batch reaches `gpu_config.batch_size` and a GPU engine is present,
otherwise to the CPU path; the `?` operator propagates a GPU error out of
the method. -/
def CfrEngine.train_batch (gpuBatchSize : ℕ)
    (gpuCompute : Option (List PokerState → Except String ℚ))
    (cpuPath : List PokerState → Option ℚ) (states : List PokerState) :
    Except String (Option ℚ) :=
  if gpuBatchSize ≤ states.length ∧ gpuCompute.isSome then
    train_batch_gpu gpuCompute cpuPath states
  else
    .ok (cpuPath states)

theorem advance_step (f : List Card) (c : Card) (s : PokerState) :
    (advance_betting_round f c s).is_terminal = true
    ∨ s.bettingRound.idx < (advance_betting_round f c s).bettingRound.idx := by
  cases hb : s.bettingRound with
  | river =>
    left
    simp [advance_betting_round, hb, PokerState.is_terminal]
  | preflop =>
    right
    simp only [advance_betting_round, hb, BettingRound.idx]
    split_ifs <;> simp [BettingRound.idx]
  | flop =>
    right
    simp only [advance_betting_round, hb, BettingRound.idx]
    split_ifs <;> simp [BettingRound.idx]
  | turn =>
    right
    simp only [advance_betting_round, hb, BettingRound.idx]
    split_ifs <;> simp [BettingRound.idx]

theorem advance_river (f : List Card) (c : Card) (s : PokerState)
    (h : s.bettingRound = BettingRound.river) :
    (advance_betting_round f c s).is_terminal = true := by
  simp [advance_betting_round, h, PokerState.is_terminal]

/-- Applying any action either reaches a terminal state or strictly advances
the betting round. -/
theorem apply_action_step (f : List Card) (c : Card) (s : PokerState) (a : Action) :
    (apply_action f c s a).is_terminal = true
    ∨ s.bettingRound.idx < (apply_action f c s a).bettingRound.idx := by
  cases a with
  | fold => left; simp [apply_action, PokerState.is_terminal]
  | allIn => left; simp [apply_action, PokerState.is_terminal]
  | call => exact advance_step f c s
  | check => exact advance_step f c s
  | raise amount => exact advance_step f c _
  | bet amount => exact advance_step f c _

/-- After the River round, every applied action yields a terminal state. -/
theorem apply_action_river (f : List Card) (c : Card) (s : PokerState) (a : Action)
    (h : s.bettingRound = BettingRound.river) :
    (apply_action f c s a).is_terminal = true := by
  cases a with
  | fold => simp [apply_action, PokerState.is_terminal]
  | allIn => simp [apply_action, PokerState.is_terminal]
  | call => exact advance_river f c s h
  | check => exact advance_river f c s h
  | raise amount => exact advance_river f c _ h
  | bet amount => exact advance_river f c _ h

theorem round_idx_le (b : BettingRound) : b.idx ≤ 3 := by
  cases b <;> simp [BettingRound.idx]

theorem cfrList_isSome {K : Type} [DecidableEq K] (abs : PokerState → K)
    (oracle : CfrOracle) (fuel : ℕ)
    (hrec : ∀ (strategies : HMap K Strategy) (path : List ℕ) (st : PokerState) (rp ro : ℚ),
      4 - st.bettingRound.idx ≤ fuel →
      (cfrRec abs oracle fuel strategies path st rp ro).isSome = true)
    (state : PokerState) (hst : 3 - state.bettingRound.idx ≤ fuel) :
    ∀ (items : List (ℕ × Action)) (strategies : HMap K Strategy) (path : List ℕ)
      (strategy : HMap Action ℚ) (rp ro : ℚ),
      (cfrList abs oracle fuel strategies path state strategy rp ro items).isSome = true := by
  intro items
  induction items with
  | nil =>
    intro strategies path strategy rp ro
    rw [cfrList]
    rfl
  | cons p rest ih =>
    obtain ⟨i, a⟩ := p
    intro strategies path strategy rp ro
    rw [cfrList]
    by_cases hterm :
        (apply_action (oracle (i :: path)).1 (oracle (i :: path)).2.1 state a).is_terminal = true
    · rw [if_pos hterm]
      obtain ⟨trip, htrip⟩ :=
        Option.isSome_iff_exists.mp (ih strategies path strategy rp ro)
      obtain ⟨avs, nv, st4⟩ := trip
      simp only [htrip, Option.isSome_some]
    · rw [if_neg hterm]
      have hadv := apply_action_step (oracle (i :: path)).1 (oracle (i :: path)).2.1 state a
      have hidx : state.bettingRound.idx
          < (apply_action (oracle (i :: path)).1 (oracle (i :: path)).2.1 state a).bettingRound.idx := by
        rcases hadv with hadv | hadv
        · exact absurd hadv hterm
        · exact hadv
      have hrec2 := hrec strategies (i :: path)
        (apply_action (oracle (i :: path)).1 (oracle (i :: path)).2.1 state a)
        ro (rp * ((hfind strategy a).getD 0)) (by omega)
      obtain ⟨pr2, hpr2⟩ := Option.isSome_iff_exists.mp hrec2
      obtain ⟨v, st⟩ := pr2
      obtain ⟨trip, htrip⟩ := Option.isSome_iff_exists.mp (ih st path strategy rp ro)
      obtain ⟨avs, nv, st4⟩ := trip
      simp only [hpr2, htrip, Option.isSome_some]

theorem cfrRec_isSome {K : Type} [DecidableEq K] (abs : PokerState → K) (oracle : CfrOracle) :
    ∀ (fuel : ℕ) (strategies : HMap K Strategy) (path : List ℕ) (st : PokerState) (rp ro : ℚ),
      4 - st.bettingRound.idx ≤ fuel →
      (cfrRec abs oracle fuel strategies path st rp ro).isSome = true := by
  intro fuel
  induction fuel with
  | zero =>
    intro strategies path st rp ro h
    have := round_idx_le st.bettingRound
    omega
  | succ fuel ih =>
    intro strategies path st rp ro h
    rw [cfrRec]
    have hlist := cfrList_isSome abs oracle fuel ih st
      (by have := round_idx_le st.bettingRound; omega)
    obtain ⟨trip, htrip⟩ := Option.isSome_iff_exists.mp
      (hlist st.availableActions.enum
        (hinsert strategies (abs st)
          (((hfind strategies (abs st)).getD Strategy.new).get_current_strategy
            st.availableActions).2)
        path
        (((hfind strategies (abs st)).getD Strategy.new).get_current_strategy
          st.availableActions).1
        rp ro)
    obtain ⟨avs, nv, st4⟩ := trip
    rw [htrip]
    rfl

/-- Claim C4.  Applying any action either yields a terminal state or
strictly advances the betting round; after River every applied action yields
a terminal state; hence `cfr_recursive` terminates — a recursion budget of 4
(the number of betting rounds, well below rounds × actions-per-round)
suffices from any starting state, for every oracle and strategy table. -/
theorem claim_C4_theorem {K : Type} [DecidableEq K] (abs : PokerState → K)
    (oracle : CfrOracle) (f : List Card) (c : Card) (s : PokerState) (a : Action)
    (strategies : HMap K Strategy) (path : List ℕ) (rp ro : ℚ) :
    ((apply_action f c s a).is_terminal = true
      ∨ s.bettingRound.idx < (apply_action f c s a).bettingRound.idx)
    ∧ (s.bettingRound = BettingRound.river → (apply_action f c s a).is_terminal = true)
    ∧ (cfrRec abs oracle 4 strategies path s rp ro).isSome = true :=
  ⟨apply_action_step f c s a,
    fun h => apply_action_river f c s a h,
    cfrRec_isSome abs oracle 4 strategies path s rp ro
      (by have := round_idx_le s.bettingRound; omega)⟩

/-- Witness for C4 at a concrete River state with one legal action. -/
theorem claim_C4_witness :
    ((apply_action [] (Card.mk 2 0)
        ⟨[], [], 10, 100, 0, 2, BettingRound.river, [Action.fold]⟩ Action.call).is_terminal = true
      ∨ (⟨[], [], 10, 100, 0, 2, BettingRound.river, [Action.fold]⟩ :
          PokerState).bettingRound.idx
        < (apply_action [] (Card.mk 2 0)
            ⟨[], [], 10, 100, 0, 2, BettingRound.river, [Action.fold]⟩ Action.call).bettingRound.idx)
    ∧ (apply_action [] (Card.mk 2 0)
        ⟨[], [], 10, 100, 0, 2, BettingRound.river, [Action.fold]⟩ Action.call).is_terminal = true
    ∧ (cfrRec (fun _ => (0 : ℕ)) (fun _ => ([], Card.mk 2 0, true)) 4 [] []
        ⟨[], [], 10, 100, 0, 2, BettingRound.river, [Action.fold]⟩ 1 1).isSome = true := by
  have h := claim_C4_theorem (fun _ => (0 : ℕ)) (fun _ => ([], Card.mk 2 0, true))
    [] (Card.mk 2 0) ⟨[], [], 10, 100, 0, 2, BettingRound.river, [Action.fold]⟩ Action.call
    [] [] 1 1
  exact ⟨h.1, h.2.1 rfl, h.2.2⟩

/-- Claim C3 evidence (code bug).  When the batch reaches the GPU threshold
and the accelerator's `compute_cfr_batch` fails, `CfrEngine::train_batch`
returns that error: `train_batch_gpu` forwards the GPU result as is, and its
CPU-fallback arm is unreachable because `train_batch` only calls it when
`gpu_compute.is_some()`.  This contradicts the spec (and the code's own
`Fallback CPU si GPU échoue` comment). -/
theorem claim_C3_theorem (thresh : ℕ) (e : String) (cpuPath : List PokerState → Option ℚ)
    (states : List PokerState) (h : thresh ≤ states.length) :
    CfrEngine.train_batch thresh (some (fun _ => .error e)) cpuPath states = .error e := by
  simp [CfrEngine.train_batch, train_batch_gpu, h, Except.map]

/-- Witness for C3: a one-state batch at threshold 1 with a failing GPU. -/
theorem claim_C3_witness :
    1 ≤ ([(⟨[], [], 10, 100, 0, 2, BettingRound.preflop, []⟩ : PokerState)]).length
    ∧ CfrEngine.train_batch 1 (some (fun _ => .error "gpu failure")) (fun _ => some 0)
        [(⟨[], [], 10, 100, 0, 2, BettingRound.preflop, []⟩ : PokerState)]
      = .error "gpu failure" :=
  ⟨by simp,
    claim_C3_theorem 1 "gpu failure" (fun _ => some 0)
      [(⟨[], [], 10, 100, 0, 2, BettingRound.preflop, []⟩ : PokerState)] (by simp)⟩

/-! ### `lib.rs` — the PyO3-facing `RustCfrEngine` -/

/-- A Python game-state dict: each field may be absent (or of the wrong
type), in which case `extract_state_values` substitutes the default.  The
hole and community cards may be present in the dict but are never read by
`lib.rs`. -/
structure PyState where
  pot_size : Option ℚ
  stack_size : Option ℚ
  position : Option ℕ
  num_players : Option ℕ
  betting_round : Option String
  hole_cards : List Card
  community_cards : List Card
deriving DecidableEq, Repr

/-- `RustCfrEngine::extract_state_values` with its defaults
(pot 10.0, stack 100.0, position 0, players 2). -/
def extract_state_values (st : PyState) : ℚ × ℚ × ℕ × ℕ :=
  (st.pot_size.getD 10, st.stack_size.getD 100, st.position.getD 0, st.num_players.getD 2)

/-- Rust `f64 as u32`: truncate toward zero, saturating at the `u32` range
(negative values go to 0). -/
def f64_as_u32 (q : ℚ) : ℕ :=
  if q ≤ 0 then 0 else min q.floor.toNat (2 ^ 32 - 1)

/-- `RustCfrEngine::create_cache_key`:
`format!("{}_{}_{}_{}", pot as u32, stack as u32, position, num_players)`.
The decimal rendering of the four numbers separated by underscores is
injective, so the key is modelled as the 4-tuple itself. -/
def create_cache_key (st : PyState) : ℕ × ℕ × ℕ × ℕ :=
  (f64_as_u32 (extract_state_values st).1,
   f64_as_u32 (extract_state_values st).2.1,
   (extract_state_values st).2.2.1,
   (extract_state_values st).2.2.2)

/-- `RustCfrEngine::get_legal_actions` (ignores its argument). -/
def get_legal_actions (_infoSet : String) : List String :=
  ["fold", "call", "check", "bet_small", "bet_medium", "bet_large"]

/-- `RustCfrEngine::extract_information_set`:
`format!("{}_{}_{}", position % 3, betting_round, ((pot/stack.max(1))·5 clamped) % 5)`.
Modelled as the triple itself (the rendering is injective on it). -/
def extract_information_set (st : PyState) : ℕ × String × ℕ :=
  ((extract_state_values st).2.2.1 % 3,
   st.betting_round.getD "preflop",
   (f64_as_u32 (min ((extract_state_values st).1
      / max (extract_state_values st).2.1 1) 3 * 5)) % 5)

/-- `RustCfrEngine::calculate_action_regret_heuristic` (`lib.rs` lines
330–355).  Caveat: `(stack_size / pot_size)` is an `f64` division; with
`pot_size = 0` Rust produces a non-finite value where `ℚ` division yields 0;
no theorem below evaluates this function at `pot_size = 0`. -/
def calculate_action_regret_heuristic (action : String) (pot stack : ℚ)
    (position num_players : ℕ) : ℚ :=
  (if action = "fold" then 0
    else if action = "call" ∨ action = "check" then pot * (4 / 10)
    else if action = "bet_small" then pot * (6 / 10)
    else if action = "bet_medium" then pot * (8 / 10)
    else if action = "bet_large" then pot * 1
    else pot * (3 / 10))
  * (if position ≤ 2 then 9 / 10 else if position ≤ 5 then 1
      else if position ≤ 9 then 11 / 10 else 1)
  * (8 / 10 + min (stack / pot) 3 / 3 * (4 / 10))
  * (1 + (10 - (num_players : ℚ)) / 10 * (2 / 10))

/-- `struct RustCfrEngine` (`lib.rs`): the string-keyed regret and strategy
tables, the equity cache (values are `f64`, hence `Option ℚ` to include the
NaN produced with 0 samples), and the counters. -/
structure RustCfrEngine where
  regretSum : HMap (ℕ × String × ℕ) (HMap String ℚ)
  strategySum : HMap (ℕ × String × ℕ) (HMap String ℚ)
  equityCache : HMap (ℕ × ℕ × ℕ × ℕ) (Option ℚ)
  totalSimulations : ℕ
  iterations : ℕ
deriving DecidableEq, Repr

/-- `RustCfrEngine::process_single_state` (`lib.rs` lines 207–254):
heuristic regrets for the fixed action menu, accumulated into the regret
table; strategy-sum entry created and, when some regret is positive, updated
with the normalized positive regrets.  Returns the total absolute regret. -/
def process_single_state (eng : RustCfrEngine) (st : PyState) : RustCfrEngine × ℚ :=
  let infoSet := extract_information_set st
  let actions := get_legal_actions "ignored"
  if actions.isEmpty then (eng, 0)
  else
    let v := extract_state_values st
    let regrets := actions.map
      (fun a => (a, calculate_action_regret_heuristic a v.1 v.2.1 v.2.2.1 v.2.2.2))
    let totalRegret := (regrets.map (fun p => |p.2|)).sum
    let eng1 := { eng with
      regretSum := hinsert eng.regretSum infoSet
        (regrets.foldl (fun (m : HMap String ℚ) (p : String × ℚ) => hadd m p.1 p.2)
          ((hfind eng.regretSum infoSet).getD [])) }
    let totalPositive := (regrets.map (fun p => max p.2 0)).sum
    let eng2 := { eng1 with
      strategySum := hinsert eng1.strategySum infoSet
        (if 0 < totalPositive then
          regrets.foldl (fun (m : HMap String ℚ) (p : String × ℚ) =>
              hadd m p.1 (max p.2 0 / totalPositive))
            ((hfind eng1.strategySum infoSet).getD [])
        else
          (hfind eng1.strategySum infoSet).getD []) }
    (eng2, totalRegret)

/-- `RustCfrEngine::train_batch` (`lib.rs` lines 64–89): `Ok(0.0)` for an
empty batch; otherwise items that are not dicts (`none`) or whose processing
errs are skipped, the per-state convergences are averaged and the iteration
counter bumped. -/
def RustCfrEngine.train_batch (eng : RustCfrEngine) (pyStates : List (Option PyState)) :
    Except String (RustCfrEngine × ℚ) :=
  if pyStates.length = 0 then .ok (eng, 0)
  else
    let acc := pyStates.foldl
      (fun (acc : RustCfrEngine × ℚ) item =>
        match item with
        | none => acc
        | some st =>
          ((process_single_state acc.1 st).1, acc.2 + (process_single_state acc.1 st).2))
      (eng, 0)
    .ok ({ acc.1 with iterations := acc.1.iterations + 1 },
      acc.2 / ((max pyStates.length 1 : ℕ) : ℚ))

/-- Claim C9 (amended): the Python-facing batch trainer returns exactly 0
for the empty batch, does not fail, and leaves the engine untouched, so
training continues past an empty batch. -/
theorem claim_C9_theorem (eng : RustCfrEngine) :
    RustCfrEngine.train_batch eng [] = .ok (eng, 0) := by
  simp [RustCfrEngine.train_batch]

/-- Counterexample to C9 as stated for the other cited batch-training
routine: `CfrEngine::train_batch_cpu` on the empty batch computes
`0.0 / 0.0` (the convergence list is empty), which is NaN, not the scalar
0. -/
theorem claim_C9_counterexample :
    train_batch_cpu (fun _ => 0) 4 [] = none := by
  simp [train_batch_cpu, listChunks, fdiv]

/-- `RustCfrEngine::simulate_hand_ultra_fast` (`lib.rs` lines 296–316), with
the two `rng.gen::<f64>()` draws of the trial as parameters.  Caveat:
`(pot_size / stack_size)` is an `f64` division; with `stack_size = 0` Rust
produces a non-finite value where `ℚ` division yields 0; no theorem below
evaluates the trial at `stack_size = 0`, and the theorems about the win
count use only that each trial is a boolean. -/
def simulate_hand_ultra_fast (pot stack : ℚ) (position num_players : ℕ)
    (draws : ℚ × ℚ) : Bool :=
  decide (draws.2 * (1 / 2) + 1 / 4
    < draws.1 * (6 / 10) + 2 / 10
      + (if position ≤ 2 then 0 else if position ≤ 5 then 5 / 100
          else if position ≤ 9 then (1 : ℚ) / 10 else 0)
      + min (pot / stack) 1 * (1 / 10)
      + (10 - (num_players : ℚ)) / 20)

/-- The Monte-Carlo loop of `calculate_win_probability`: how many of the
first `n` trials the hero wins, with trial `i` using draws `rng i`. -/
def winCount (rng : ℕ → ℚ × ℚ) (n : ℕ) (pot stack : ℚ)
    (position num_players : ℕ) : ℕ :=
  ((List.range n).filter
    (fun i => simulate_hand_ultra_fast pot stack position num_players (rng i))).length

/-- `RustCfrEngine::calculate_win_probability` (`lib.rs` lines 126–160):
return the cached equity when the key is present; otherwise run the
Monte-Carlo trials, divide `wins as f64 / sim_count as f64` (NaN when
`sim_count = 0`, since `wins = 0` then), cache the result and bump the
simulation counter. -/
def calculate_win_probability (eng : RustCfrEngine) (st : PyState)
    (simulations : Option ℕ) (rng : ℕ → ℚ × ℚ) : Option ℚ × RustCfrEngine :=
  match hfind eng.equityCache (create_cache_key st) with
  | some cached => (cached, eng)
  | none =>
    (if simulations.getD 10000 = 0 then none
      else some ((winCount rng (simulations.getD 10000) (extract_state_values st).1
          (extract_state_values st).2.1 (extract_state_values st).2.2.1
          (extract_state_values st).2.2.2 : ℚ) / (simulations.getD 10000 : ℚ)),
     { eng with
        equityCache := hinsert eng.equityCache (create_cache_key st)
          (if simulations.getD 10000 = 0 then none
            else some ((winCount rng (simulations.getD 10000) (extract_state_values st).1
                (extract_state_values st).2.1 (extract_state_values st).2.2.1
                (extract_state_values st).2.2.2 : ℚ) / (simulations.getD 10000 : ℚ))),
        totalSimulations := eng.totalSimulations + simulations.getD 10000 })

/-- Claim C10.  On the uncached path with `num_samples ≥ 1`, the estimator
returns `wins / num_samples` with `0 ≤ wins ≤ num_samples`, hence a value in
`[0, 1]`; with `num_samples = 0` both the numerator (`wins`) and the
unguarded divisor are 0, so the `f64` result is NaN rather than a
probability — `num_samples ≥ 1` is a necessary precondition. -/
theorem claim_C10_theorem (eng : RustCfrEngine) (st : PyState) (rng : ℕ → ℚ × ℚ) (n : ℕ)
    (huncached : hfind eng.equityCache (create_cache_key st) = none) :
    (1 ≤ n →
      (calculate_win_probability eng st (some n) rng).1
          = some ((winCount rng n (extract_state_values st).1 (extract_state_values st).2.1
              (extract_state_values st).2.2.1 (extract_state_values st).2.2.2 : ℚ) / (n : ℚ))
        ∧ winCount rng n (extract_state_values st).1 (extract_state_values st).2.1
            (extract_state_values st).2.2.1 (extract_state_values st).2.2.2 ≤ n
        ∧ 0 ≤ ((winCount rng n (extract_state_values st).1 (extract_state_values st).2.1
            (extract_state_values st).2.2.1 (extract_state_values st).2.2.2 : ℚ) / (n : ℚ))
        ∧ ((winCount rng n (extract_state_values st).1 (extract_state_values st).2.1
            (extract_state_values st).2.2.1 (extract_state_values st).2.2.2 : ℚ) / (n : ℚ)) ≤ 1)
    ∧ (n = 0 →
        winCount rng 0 (extract_state_values st).1 (extract_state_values st).2.1
            (extract_state_values st).2.2.1 (extract_state_values st).2.2.2 = 0
        ∧ (calculate_win_probability eng st (some 0) rng).1 = none) := by
  have hwins : winCount rng n (extract_state_values st).1 (extract_state_values st).2.1
      (extract_state_values st).2.2.1 (extract_state_values st).2.2.2 ≤ n := by
    have := List.length_filter_le
      (fun i => simulate_hand_ultra_fast (extract_state_values st).1
        (extract_state_values st).2.1 (extract_state_values st).2.2.1
        (extract_state_values st).2.2.2 (rng i))
      (List.range n)
    simpa [winCount] using this
  constructor
  · intro hn
    have hne : n ≠ 0 := by omega
    have hnq : (0 : ℚ) < (n : ℚ) := by exact_mod_cast Nat.pos_of_ne_zero hne
    refine ⟨?_, hwins, ?_, ?_⟩
    · simp only [calculate_win_probability, huncached, Option.getD_some]
      rw [if_neg hne]
    · positivity
    · rw [div_le_one hnq]
      exact_mod_cast hwins
  · intro hn0
    refine ⟨?_, ?_⟩
    · simp [winCount]
    · simp [calculate_win_probability, huncached]

/-- Witness for C10: the empty engine, a fieldless state (defaults apply),
2 samples. -/
theorem claim_C10_witness :
    (hfind (⟨[], [], [], 0, 0⟩ : RustCfrEngine).equityCache
        (create_cache_key ⟨none, none, none, none, none, [], []⟩) = none
      ∧ 1 ≤ 2)
    ∧ ((calculate_win_probability ⟨[], [], [], 0, 0⟩ ⟨none, none, none, none, none, [], []⟩
          (some 2) (fun _ => (1 / 2, 1 / 2))).1
        = some ((winCount (fun _ => (1 / 2, 1 / 2)) 2
            (extract_state_values ⟨none, none, none, none, none, [], []⟩).1
            (extract_state_values ⟨none, none, none, none, none, [], []⟩).2.1
            (extract_state_values ⟨none, none, none, none, none, [], []⟩).2.2.1
            (extract_state_values ⟨none, none, none, none, none, [], []⟩).2.2.2 : ℚ) / (2 : ℚ))
      ∧ winCount (fun _ => (1 / 2, 1 / 2)) 2
          (extract_state_values ⟨none, none, none, none, none, [], []⟩).1
          (extract_state_values ⟨none, none, none, none, none, [], []⟩).2.1
          (extract_state_values ⟨none, none, none, none, none, [], []⟩).2.2.1
          (extract_state_values ⟨none, none, none, none, none, [], []⟩).2.2.2 ≤ 2
      ∧ 0 ≤ ((winCount (fun _ => (1 / 2, 1 / 2)) 2
          (extract_state_values ⟨none, none, none, none, none, [], []⟩).1
          (extract_state_values ⟨none, none, none, none, none, [], []⟩).2.1
          (extract_state_values ⟨none, none, none, none, none, [], []⟩).2.2.1
          (extract_state_values ⟨none, none, none, none, none, [], []⟩).2.2.2 : ℚ) / (2 : ℚ))
      ∧ ((winCount (fun _ => (1 / 2, 1 / 2)) 2
          (extract_state_values ⟨none, none, none, none, none, [], []⟩).1
          (extract_state_values ⟨none, none, none, none, none, [], []⟩).2.1
          (extract_state_values ⟨none, none, none, none, none, [], []⟩).2.2.1
          (extract_state_values ⟨none, none, none, none, none, [], []⟩).2.2.2 : ℚ) / (2 : ℚ)) ≤ 1) :=
  ⟨⟨rfl, by omega⟩,
    (claim_C10_theorem ⟨[], [], [], 0, 0⟩ ⟨none, none, none, none, none, [], []⟩
      (fun _ => (1 / 2, 1 / 2)) 2 rfl).1 (by omega)⟩

/-! ### `cfr/full_engine.rs` — `FullCfrEngine::calculate_win_probability_fast` -/

/-- `FullCfrEngine::calculate_board_interaction` (`full_engine.rs` lines
147–171): 0.15 per hole-card/board-card rank match, plus 0.08 when the hole
cards are suited and at least two board cards share that suit. -/
def calculate_board_interaction (hole community : List Card) : ℚ :=
  (hole.map (fun hc =>
    ((community.filter (fun bc => bc.rank = hc.rank)).length : ℚ) * (15 / 100))).sum
  + (match hole with
     | c0 :: c1 :: _ =>
       if c0.suit = c1.suit
           ∧ 2 ≤ (community.filter (fun c => c.suit = c0.suit)).length then
         8 / 100
       else 0
     | _ => 0)

/-- `FullCfrEngine::evaluate_hand_strength_fast` (`full_engine.rs` lines
103–144).  The `as i8` casts in the connector check are faithful for ranks
up to 127 (real ranks are 2–14). -/
def evaluate_hand_strength_fast (hole community : List Card) : ℚ :=
  if hole.isEmpty then 0
  else
    min
      ((hole.map (fun c => (c.rank : ℚ) / 14)).sum
          / ((hole.map (fun c => (c.rank : ℚ) / 14)).length : ℚ)
        + ((match hole with
            | c0 :: c1 :: _ =>
              (if c0.rank = c1.rank then 25 / 100 + ((c0.rank : ℚ) - 2) * (2 / 100) else 0)
              + (if c0.suit = c1.suit then 5 / 100 else 0)
              + (if |(c0.rank : ℤ) - (c1.rank : ℤ)| ≤ 1 then (3 : ℚ) / 100 else 0)
            | _ => 0)
          + (if community.isEmpty then 0 else calculate_board_interaction hole community)))
      1

/-- `FullCfrEngine::simulate_hand_fast` (`full_engine.rs` lines 76–100),
with the per-opponent random draws as parameters (opponent `j` of the trial
gets `draws j`; Preflop adds no skill draw).  `num_players - 1` is `usize`
subtraction, modelled by truncated subtraction. -/
def simulate_hand_fast (state : PokerState) (draws : ℕ → ℚ × ℚ) : Bool :=
  ((List.range (state.numPlayers - 1)).map
    (fun j =>
      (draws j).1 * (6 / 10) + 2 / 10
      + (match state.bettingRound with
         | .preflop => 0
         | .flop => (draws j).2 * (1 / 10)
         | .turn => (draws j).2 * (15 / 100)
         | .river => (draws j).2 * (2 / 10)))).all
    (fun o => decide (o < evaluate_hand_strength_fast state.holeCards state.communityCards))

/-- The fields of `FullCfrEngine` that `calculate_win_probability_fast`
touches: the equity cache (cache values are `f64`, hence `Option ℚ`) and the
simulation counter.  The regret/strategy tables are untouched by it. -/
structure FullCfrEngine where
  equityCache : HMap (List Card × List Card × ℕ) (Option ℚ)
  totalSimulations : ℕ
deriving DecidableEq, Repr

/-- The cache key of `calculate_win_probability_fast`:
`format!("{:?}_{:?}_{}", hole_cards, community_cards, num_players)`.  The
debug rendering is injective on the triple, so the key is modelled as the
triple itself. -/
def fast_cache_key (state : PokerState) : List Card × List Card × ℕ :=
  (state.holeCards, state.communityCards, state.numPlayers)

/-- `FullCfrEngine::calculate_win_probability_fast` (`full_engine.rs` lines
39–73): return the cached equity when the key is present; otherwise run the
trials (trial `i` uses draws `rng i`), divide `wins / simulations` (NaN when
`simulations = 0`), cache the result and bump the simulation counter. -/
def calculate_win_probability_fast (eng : FullCfrEngine) (state : PokerState)
    (simulations : ℕ) (rng : ℕ → ℕ → ℚ × ℚ) : Option ℚ × FullCfrEngine :=
  match hfind eng.equityCache (fast_cache_key state) with
  | some cached => (cached, eng)
  | none =>
    (if simulations = 0 then none
      else some ((((List.range simulations).filter
          (fun i => simulate_hand_fast state (rng i))).length : ℚ) / (simulations : ℚ)),
     { eng with
        equityCache := hinsert eng.equityCache (fast_cache_key state)
          (if simulations = 0 then none
            else some ((((List.range simulations).filter
                (fun i => simulate_hand_fast state (rng i))).length : ℚ) / (simulations : ℚ))),
        totalSimulations := eng.totalSimulations + simulations })

/-- Claim C8.  Two calls with identical hole cards, community cards and
player count hit the same cache key whatever their sample counts (the key
does not involve the sample count), and when the first call was uncached the
second call returns exactly the first call's result and leaves the engine —
cache and simulation counter — unchanged: no new Monte-Carlo sampling. -/
theorem claim_C8_theorem (eng : FullCfrEngine) (s1 s2 : PokerState) (n1 n2 : ℕ)
    (rng1 rng2 : ℕ → ℕ → ℚ × ℚ)
    (hh : s1.holeCards = s2.holeCards) (hc : s1.communityCards = s2.communityCards)
    (hp : s1.numPlayers = s2.numPlayers) :
    fast_cache_key s1 = fast_cache_key s2
    ∧ (hfind eng.equityCache (fast_cache_key s1) = none →
        calculate_win_probability_fast
            (calculate_win_probability_fast eng s1 n1 rng1).2 s2 n2 rng2
          = calculate_win_probability_fast eng s1 n1 rng1) := by
  have hkey : fast_cache_key s1 = fast_cache_key s2 := by
    simp [fast_cache_key, hh, hc, hp]
  refine ⟨hkey, ?_⟩
  intro hun
  simp only [calculate_win_probability_fast, hun, ← hkey, hfind_hinsert_self]

/-- Witness for C8: two states sharing hole cards, board and player count
(but different pots, positions and sample counts) on the empty cache. -/
theorem claim_C8_witness :
    fast_cache_key ⟨[Card.mk 14 0, Card.mk 13 0], [], 10, 100, 0, 2,
        BettingRound.preflop, []⟩
      = fast_cache_key ⟨[Card.mk 14 0, Card.mk 13 0], [], 20, 50, 1, 2,
        BettingRound.flop, []⟩
    ∧ calculate_win_probability_fast
        (calculate_win_probability_fast ⟨[], 0⟩
          ⟨[Card.mk 14 0, Card.mk 13 0], [], 10, 100, 0, 2, BettingRound.preflop, []⟩
          3 (fun _ _ => (1 / 2, 1 / 2))).2
        ⟨[Card.mk 14 0, Card.mk 13 0], [], 20, 50, 1, 2, BettingRound.flop, []⟩
        5 (fun _ _ => (1 / 3, 1 / 3))
      = calculate_win_probability_fast ⟨[], 0⟩
          ⟨[Card.mk 14 0, Card.mk 13 0], [], 10, 100, 0, 2, BettingRound.preflop, []⟩
          3 (fun _ _ => (1 / 2, 1 / 2)) := by
  have h := claim_C8_theorem ⟨[], 0⟩
    ⟨[Card.mk 14 0, Card.mk 13 0], [], 10, 100, 0, 2, BettingRound.preflop, []⟩
    ⟨[Card.mk 14 0, Card.mk 13 0], [], 20, 50, 1, 2, BettingRound.flop, []⟩
    3 5 (fun _ _ => (1 / 2, 1 / 2)) (fun _ _ => (1 / 3, 1 / 3)) rfl rfl rfl
  exact ⟨h.1, h.2 rfl⟩

end RTPA
